import Mathlib

/-!
Verification of the `diegruft` vault engine against its specification.

The development shallowly embeds the Rust sources:
  * `src/backend/encryption/encrypted.rs` — the `Encrypted` envelope over an
    AEAD primitive (the primitive itself is the external `aes_gcm` crate,
    specified only at its boundary in spec §4.1; it is modelled here as an
    executable idealized AEAD);
  * `src/backend/vault/database.rs` — the generic relational layer
    (`select_entry`, `insert_entry`, `delete_entry`, `transaction_delete`,
    transaction begin/commit/rollback) over SQLite; the SQL schemas,
    statements, row codecs and the `IntoB64` key encoding live in repository
    files not available here and are modelled from the spec (§3, §6, §7);
  * the Vault cross-resource protocol of spec §4.4 (the orchestrator module
    is not available; it is modelled from the spec's five protocol steps).

Bytes are `Nat` (a byte is `< 256` where it matters); byte strings are
`List Nat`; fallible operations return `Except DbError`/`Option`.
-/

/-- A byte string: the contents of a Rust `&[u8]` / `Vec<u8>` / `Box<[u8]>`. -/
abbrev Bytes := List Nat

/-! ## Base64 key encoding (`IntoB64`, spec §4.3 "Key encoding")

Modelled from the spec: the `IntoB64` trait implementations live in
`database_traits.rs`, which is not among the available sources.  Spec §4.3:
"any key-tuple element that is not guaranteed valid text (ciphertext bytes,
raw binary) is encoded to a text-safe representation before being bound as a
query parameter, and the encoding/decoding pair must be a lossless bijection
over arbitrary byte strings"; §3 names base64 as the encoding.  We implement
standard-alphabet base64 (unpadded) over byte strings. -/

/-- Map a sextet value (0..63) to its ASCII code in the standard base64
alphabet: `A`..`Z`, `a`..`z`, `0`..`9`, `+`, `/`. -/
def b64Char (s : Nat) : Nat :=
  if s < 26 then s + 65
  else if s < 52 then s + 71
  else if s < 62 then s - 4
  else if s = 62 then 43
  else 47

/-- Map an ASCII code back to its sextet value; `none` for characters outside
the base64 alphabet. -/
def b64CharInv (c : Nat) : Option Nat :=
  if 65 ≤ c ∧ c ≤ 90 then some (c - 65)
  else if 97 ≤ c ∧ c ≤ 122 then some (c - 71)
  else if 48 ≤ c ∧ c ≤ 57 then some (c + 4)
  else if c = 43 then some 62
  else if c = 47 then some 63
  else none

/-- Base64-encode a byte string (text-safe ASCII codes, no padding). -/
def b64Encode : Bytes → Bytes
  | [] => []
  | [a] => [b64Char (a / 4), b64Char (a % 4 * 16)]
  | [a, b] => [b64Char (a / 4), b64Char (a % 4 * 16 + b / 16), b64Char (b % 16 * 4)]
  | a :: b :: c :: rest =>
      b64Char (a / 4) :: b64Char (a % 4 * 16 + b / 16) ::
      b64Char (b % 16 * 4 + c / 64) :: b64Char (c % 64) :: b64Encode rest

/-- Base64-decode a byte string of ASCII codes; `none` on malformed input. -/
def b64Decode : Bytes → Option Bytes
  | [] => some []
  | [_] => none
  | [w, x] => do
      let s1 ← b64CharInv w
      let s2 ← b64CharInv x
      some [s1 * 4 + s2 / 16]
  | [w, x, y] => do
      let s1 ← b64CharInv w
      let s2 ← b64CharInv x
      let s3 ← b64CharInv y
      some [s1 * 4 + s2 / 16, s2 % 16 * 16 + s3 / 4]
  | w :: x :: y :: z :: rest => do
      let s1 ← b64CharInv w
      let s2 ← b64CharInv x
      let s3 ← b64CharInv y
      let s4 ← b64CharInv z
      let tail ← b64Decode rest
      some ((s1 * 4 + s2 / 16) :: (s2 % 16 * 16 + s3 / 4) :: (s3 % 4 * 64 + s4) :: tail)

/-- Every byte of a byte string is an actual byte value. -/
def ByteString (bs : Bytes) : Prop := ∀ b ∈ bs, b < 256

instance : DecidablePred ByteString := fun bs =>
  inferInstanceAs (Decidable (∀ b ∈ bs, b < 256))

/-! ## The `Encrypted` envelope (`src/backend/encryption/encrypted.rs`)

`Encrypted` holds `cipherbytes` and a 12-byte `nonce`; encryption and
decryption defer to AES-256-GCM.  The AEAD primitive itself is the external
`aes_gcm` crate, out of scope per spec §1 and specified only at its boundary
(§4.1): deterministic given `(key, nonce)`, round-trips under the same key,
and fail-closed on a wrong key or any alteration.  We model it as an
executable idealized AEAD whose ciphertext is the keystream-masked plaintext
followed by an authenticator that commits exactly to the key, the nonce and
the masked bytes — so tag verification accepts precisely the unaltered
ciphertexts, giving the boundary contract perfectly instead of
computationally. -/

/-- A 12-byte nonce used for AES-256 encryption and decryption. -/
abbrev Aes256Nonce := Bytes

/-- A 32-byte key used for AES-256 encryption and decryption. -/
abbrev Aes256Key := Bytes

/-- One keystream byte of the model cipher at stream position `i`. -/
def keystream (key nonce : Bytes) (i : Nat) : Nat :=
  key.getD (i % 32) 0 ^^^ nonce.getD (i % 12) 0 ^^^ i

/-- XOR a byte string with the model keystream, starting at position `i`.
Applying it twice restores the input (`maskFrom_maskFrom`). -/
def maskFrom (key nonce : Bytes) : Nat → Bytes → Bytes
  | _, [] => []
  | i, b :: rest => (b ^^^ keystream key nonce i) :: maskFrom key nonce (i + 1) rest

/-- Modelled from the spec: §1/§4.1 treat the AEAD encrypt direction
(`Aes256Gcm::encrypt` of the external `aes_gcm` crate) as an opaque
`encrypt(key, nonce, plaintext) -> ciphertext` that always succeeds.  The
model ciphertext is the masked plaintext followed by an authenticating tag
committing to the key, the nonce and the masked bytes. -/
def aeadEncrypt (key nonce plaintext : Bytes) : Bytes :=
  let m := maskFrom key nonce 0 plaintext
  m ++ key ++ nonce ++ m

/-- Modelled from the spec: §4.1 requires the AEAD decrypt direction
(`Aes256Gcm::decrypt`) to fail on a wrong key or any altered
ciphertext/nonce/tag (fail-closed).  The model re-derives the expected
ciphertext shape from the received bytes and rejects anything else. -/
def aeadDecrypt (key nonce ct : Bytes) : Option Bytes :=
  let L := (ct.length - 44) / 2
  let m := ct.take L
  if ct = m ++ key ++ nonce ++ m then some (maskFrom key nonce 0 m) else none

/-- An encrypted byte array (`Encrypted` in `encrypted.rs`). -/
structure Encrypted where
  cipherbytes : Bytes
  nonce : Aes256Nonce
deriving DecidableEq, Repr

/-- Errors surfaced by the encryption wrapper (`eyre` errors in the source;
spec §7 names the decryption case `DecryptionFailure`). -/
inductive CryptoError
  | decryptionFailure
deriving DecidableEq, Repr

/-- Encrypt a byte slice using a given key and nonce
(`Encrypted::try_encrypt_bytes_key_nonce`).  The `Err` branch of the source
mirrors a cipher-level failure, which the model cipher never produces. -/
def Encrypted.try_encrypt_bytes_key_nonce (byte_slice : Bytes) (key : Aes256Key)
    (nonce : Aes256Nonce) : Except CryptoError Encrypted :=
  Except.ok { cipherbytes := aeadEncrypt key nonce byte_slice, nonce := nonce }

/-- Decrypt this `Encrypted` into a byte vector
(`Encrypted::try_decrypt_bytes`). -/
def Encrypted.try_decrypt_bytes (e : Encrypted) (key : Aes256Key) :
    Except CryptoError Bytes :=
  match aeadDecrypt key e.nonce e.cipherbytes with
  | some byte_vec => Except.ok byte_vec
  | none => Except.error CryptoError.decryptionFailure

/-- Flip bit `j` (0 = least significant) of the byte at position `i`. -/
def flipBit (bs : Bytes) (i j : Nat) : Bytes :=
  bs.set i (bs.getD i 0 ^^^ 2 ^ j)


/-! ## Entity model and relational store (`src/backend/vault/database.rs`)

`database.rs` is generic over the entity type through the
`HasSqlStatements`/`IntoDatabase`/`TryFromDatabase`/`IntoB64` traits of
`database_traits.rs` and the SQL text of `sql_schemas.rs`/`sql_statements.rs`;
those three files are not among the available sources, so the schema (three
tables, their columns, primary keys and foreign keys), the row codecs, and
the SQLite statement semantics are modelled from spec §3, §6 and §7.
`database.rs` itself — the control flow of `select_entry`, `insert_entry`,
`delete_entry`, `transaction_delete` and the transaction helpers — is
embedded directly. -/

/-- Errors of the store layer (spec §7 taxonomy; the source wraps them as
`eyre` errors such as "Params returned no rows to delete."). -/
inductive DbError
  | notFound
  | constraintViolation
  | corruptRow
  | ioFailure
deriving DecidableEq

/-- Account entity (spec §3): identity and key root. -/
structure Account where
  username : Bytes
  password_verifier : Bytes
  data_key_envelope : Encrypted
deriving DecidableEq

/-- Credential entity (spec §3): a secret login record, identified by
`(owner_username, encrypted_name)`. -/
structure Credential where
  owner_username : Bytes
  encrypted_name : Encrypted
  encrypted_login_username : Encrypted
  encrypted_password : Encrypted
  encrypted_notes : Encrypted
deriving DecidableEq

/-- FileData entity (spec §3): metadata for an encrypted file whose content
lives on disk at `path`. -/
structure FileData where
  path : Bytes
  filename : Bytes
  owner_username : Bytes
  contents_nonce : Bytes
deriving DecidableEq

/-- A stored relational row: its column values in order.  Binary fields are
stored base64-encoded (spec §6). -/
abbrev Row := List Bytes

/-- The three tables of the store (spec §6). -/
structure DbState where
  accounts : List Row
  credentials : List Row
  files_data : List Row
deriving DecidableEq

/-- All the tables stored in the `Database` (the `Table` enum of
`database.rs`). -/
inductive Table
  | Accounts
  | Credentials
  | FilesData
deriving DecidableEq

/-- The entity type stored in each table (the `T` of the generic functions). -/
def Table.Entity : Table → Type
  | .Accounts => Account
  | .Credentials => Credential
  | .FilesData => FileData

/-- The rows of a table inside a store state. -/
def Table.rows (t : Table) (db : DbState) : List Row :=
  match t with
  | .Accounts => db.accounts
  | .Credentials => db.credentials
  | .FilesData => db.files_data

/-- The column positions of each table's primary key (spec §6:
`accounts.username`; `credentials.(owner_username, encrypted_name_b64)`;
`files_data.path`). -/
def Table.keyCols : Table → List Nat
  | .Accounts => [0]
  | .Credentials => [0, 1]
  | .FilesData => [0]

/-- Modelled from the spec: the `IntoDatabase` codec of each entity
(spec §6 column layout; binary fields base64-encoded). -/
def Account.into_database (a : Account) : Row :=
  [b64Encode a.username, a.password_verifier,
   b64Encode a.data_key_envelope.cipherbytes, b64Encode a.data_key_envelope.nonce]

/-- Modelled from the spec: the Credential row codec (spec §6: the
`encrypted_*` envelope fields each occupy a ciphertext and a nonce
column). -/
def Credential.into_database (c : Credential) : Row :=
  [b64Encode c.owner_username,
   b64Encode c.encrypted_name.cipherbytes, b64Encode c.encrypted_name.nonce,
   b64Encode c.encrypted_login_username.cipherbytes,
   b64Encode c.encrypted_login_username.nonce,
   b64Encode c.encrypted_password.cipherbytes, b64Encode c.encrypted_password.nonce,
   b64Encode c.encrypted_notes.cipherbytes, b64Encode c.encrypted_notes.nonce]

/-- Modelled from the spec: the FileData row codec (spec §6). -/
def FileData.into_database (f : FileData) : Row :=
  [b64Encode f.path, f.filename, b64Encode f.owner_username,
   b64Encode f.contents_nonce]

/-- Decode an envelope from its ciphertext and nonce columns; nonces are
fixed 12-byte values (spec §6). -/
def decodeEncrypted (ctCol nonceCol : Bytes) : Option Encrypted := do
  let ct ← b64Decode ctCol
  let n ← b64Decode nonceCol
  if n.length = 12 then some ⟨ct, n⟩ else none

/-- Modelled from the spec: the `TryFromDatabase` decoder for Account rows;
a row that does not decode into its entity shape is a corrupt row (§7). -/
def Account.try_from_database : Row → Option Account
  | [u, pv, ct, nn] => do
      let u2 ← b64Decode u
      let env ← decodeEncrypted ct nn
      some ⟨u2, pv, env⟩
  | _ => none

/-- Modelled from the spec: the `TryFromDatabase` decoder for Credential
rows. -/
def Credential.try_from_database : Row → Option Credential
  | [o, nb, nn, lb, lnn, pb, pn, tb, tn] => do
      let o2 ← b64Decode o
      let en ← decodeEncrypted nb nn
      let el ← decodeEncrypted lb lnn
      let ep ← decodeEncrypted pb pn
      let et ← decodeEncrypted tb tn
      some ⟨o2, en, el, ep, et⟩
  | _ => none

/-- Modelled from the spec: the `TryFromDatabase` decoder for FileData
rows. -/
def FileData.try_from_database : Row → Option FileData
  | [p, fname, o, cn] => do
      let p2 ← b64Decode p
      let o2 ← b64Decode o
      let cn2 ← b64Decode cn
      if cn2.length = 12 then some ⟨p2, fname, o2, cn2⟩ else none
  | _ => none

/-- Table-dispatched decoder. -/
def Table.try_from_database : (t : Table) → Row → Option t.Entity
  | .Accounts => Account.try_from_database
  | .Credentials => Credential.try_from_database
  | .FilesData => FileData.try_from_database

/-- Table-dispatched row encoder. -/
def Table.into_database : (t : Table) → t.Entity → Row
  | .Accounts => Account.into_database
  | .Credentials => Credential.into_database
  | .FilesData => FileData.into_database

/-- Helper to get SQLite params from a key array
(`Database::get_params_iter`): every key element is encoded by `IntoB64`
before being bound as a query parameter. -/
def get_params_iter (params_arr : List Bytes) : List Bytes :=
  params_arr.map b64Encode

/-- A stored row matches the bound key parameters when each primary-key
column equals the corresponding parameter (the `WHERE` clauses of the
per-table SQL statements, spec §6). -/
def rowMatches (keyCols : List Nat) (params : List Bytes) (row : Row) : Bool :=
  decide (keyCols.map (fun i => row.getD i []) = params)

/-- Retrieve a specific entry based on the given primary key
(`Database::select_entry`): `Ok None` when no row matches
(`QueryReturnedNoRows`); a matched row that fails to decode surfaces the
decoder's error (`CorruptRow`, spec §7). -/
def select_entry (t : Table) (db : DbState) (primary_key_arr : List Bytes) :
    Except DbError (Option t.Entity) :=
  let params := get_params_iter primary_key_arr
  match (t.rows db).find? (rowMatches t.keyCols params) with
  | none => Except.ok none
  | some row =>
    match t.try_from_database row with
    | some e => Except.ok (some e)
    | none => Except.error DbError.corruptRow

/-- Modelled from the spec: the state change of the per-table SQL DELETE.
Deleting from `accounts` cascades to the `credentials` and `files_data`
rows owned by the deleted usernames (spec §3: account deletion removes all
rows it owns; the schema files carrying the clauses are unavailable). -/
def applyDelete (t : Table) (db : DbState) (params : List Bytes) : DbState :=
  match t with
  | .Accounts =>
    let deleted := db.accounts.filter (rowMatches Table.Accounts.keyCols params)
    let delUsers := deleted.map (fun r => r.getD 0 [])
    { accounts := db.accounts.filter
        (fun r => !rowMatches Table.Accounts.keyCols params r),
      credentials := db.credentials.filter
        (fun r => !delUsers.contains (r.getD 0 [])),
      files_data := db.files_data.filter
        (fun r => !delUsers.contains (r.getD 2 [])) }
  | .Credentials =>
    { db with credentials :=
        db.credentials.filter (fun r => !rowMatches Table.Credentials.keyCols params r) }
  | .FilesData =>
    { db with files_data :=
        db.files_data.filter (fun r => !rowMatches Table.FilesData.keyCols params r) }

/-- Delete a specific entry based on the given primary key
(`Database::delete_entry`): the DELETE statement reports the number of
directly deleted rows; zero is the error "Params returned no rows to
delete.". -/
def delete_entry (t : Table) (db : DbState) (primary_key_arr : List Bytes) :
    Except DbError DbState :=
  let params := get_params_iter primary_key_arr
  let num_rows := (t.rows db).countP (rowMatches t.keyCols params)
  if num_rows = 0 then Except.error DbError.notFound
  else Except.ok (applyDelete t db params)

/-- Append a freshly inserted row to its table. -/
def appendRow (t : Table) (db : DbState) (row : Row) : DbState :=
  match t with
  | .Accounts => { db with accounts := db.accounts ++ [row] }
  | .Credentials => { db with credentials := db.credentials ++ [row] }
  | .FilesData => { db with files_data := db.files_data ++ [row] }

/-- Modelled from the spec: the foreign-key check SQLite performs on insert
(spec §3/§6: every Credential and FileData row must reference an existing
Account; `Database::connect` switches `SQLITE_DBCONFIG_ENABLE_FKEY` on). -/
def fkOk (t : Table) (db : DbState) (row : Row) : Bool :=
  match t with
  | .Accounts => true
  | .Credentials => db.accounts.any (fun ar => ar.getD 0 [] = row.getD 0 [])
  | .FilesData => db.accounts.any (fun ar => ar.getD 0 [] = row.getD 2 [])

/-- Modelled from the spec: the primary-key uniqueness check SQLite performs
on insert (spec §7: duplicate primary key is a `ConstraintViolation`). -/
def pkFresh (t : Table) (db : DbState) (row : Row) : Bool :=
  !(t.rows db).any (rowMatches t.keyCols (t.keyCols.map (fun i => row.getD i [])))

/-- Insert a specific entry into the matching table
(`Database::insert_entry`): encode the entity and execute the INSERT; a
missing foreign-key target or duplicate primary key is a constraint
violation. -/
def insert_entry (t : Table) (db : DbState) (entry : t.Entity) :
    Except DbError DbState :=
  let row := t.into_database entry
  if fkOk t db row then
    if pkFresh t db row then Except.ok (appendRow t db row)
    else Except.error DbError.constraintViolation
  else Except.error DbError.constraintViolation

/-! ## Transactions and the cross-resource protocol -/

/-- An open store transaction: the committed state `base` it started from,
and the working state `work` holding its uncommitted mutations (spec §4.3:
mutations inside an open transaction are invisible to other readers, undone
entirely by rollback; commit makes them durable atomically). -/
structure Txn where
  base : DbState
  work : DbState
deriving DecidableEq

/-- Create a new database transaction (`Database::new_transaction`). -/
def new_transaction (db : DbState) : Txn := ⟨db, db⟩

/-- Rollback the transaction (`Database::rollback_transaction`): the
connection keeps the state the transaction started from. -/
def rollback_transaction (tx : Txn) : DbState := tx.base

/-- Commit the transaction (`Database::commit_transaction`): its mutations
become the committed state. -/
def commit_transaction (tx : Txn) : DbState := tx.work

/-- Delete a specific entry using the current transaction
(`Database::transaction_delete`): prepares and executes the table's DELETE
statement on the transaction, then applies the zero-rows check.  The
function takes the `Transaction` by value and returns without calling
`commit`, so the transaction value at the moment it is dropped is returned
alongside the result. -/
def transaction_delete (t : Table) (primary_key_arr : List Bytes) (tx : Txn) :
    Except DbError Unit × Txn :=
  let params := get_params_iter primary_key_arr
  let num_rows := (t.rows tx.work).countP (rowMatches t.keyCols params)
  let tx2 : Txn := ⟨tx.base, applyDelete t tx.work params⟩
  if num_rows = 0 then (Except.error DbError.notFound, tx2) else (Except.ok (), tx2)

/-- A transaction that goes out of scope without an explicit commit rolls
back (the `rusqlite` `Transaction` drop contract, matching spec §4.3's
rollback semantics).  `transaction_delete` consumes its transaction, so this
is the committed store state after it returns. -/
def connection_after_transaction_delete (t : Table) (primary_key_arr : List Bytes)
    (tx : Txn) : DbState :=
  rollback_transaction (transaction_delete t primary_key_arr tx).2

/-- Filesystem contents: a list of `(path, file bytes)` pairs. -/
abbrev Fs := List (Bytes × Bytes)

/-- Modelled from the spec: the store-side mutation step of the §4.4
protocol — perform the delete inside the open transaction, leaving the
transaction open for the later commit or rollback. -/
def txnDeleteStep (t : Table) (primary_key_arr : List Bytes) (tx : Txn) :
    Except DbError Txn :=
  match delete_entry t tx.work primary_key_arr with
  | Except.error e => Except.error e
  | Except.ok w => Except.ok ⟨tx.base, w⟩

/-- Modelled from the spec: §4.4's cross-resource protocol for an operation
combining a store delete with a filesystem mutation.  Step 1 opens a
transaction; step 2 performs the store delete inside it, rolling back and
returning the error on failure with the filesystem never touched; step 3
performs the filesystem mutation; step 4 rolls the store back if it failed;
step 5 commits. -/
def crossResourceDelete (t : Table) (primary_key_arr : List Bytes) (db : DbState)
    (fs : Fs) (fsOp : Fs → Except DbError Fs) :
    Except DbError Unit × DbState × Fs :=
  let tx := new_transaction db
  match txnDeleteStep t primary_key_arr tx with
  | Except.error e => (Except.error e, rollback_transaction tx, fs)
  | Except.ok tx2 =>
    match fsOp fs with
    | Except.error e => (Except.error e, rollback_transaction tx2, fs)
    | Except.ok fs2 => (Except.ok (), commit_transaction tx2, fs2)

/-- Modelled from the spec: `Vault`'s cascading, cross-resource account
deletion (§4.4/§6): collect the paths referenced by the account's FileData
rows, then run the protocol — cascade-delete the Account row inside a
transaction, remove the referenced files from disk (removing an
already-absent file is success, §4.4 step 4), and commit. -/
def delete_account (db : DbState) (fs : Fs) (username : Bytes) :
    Except DbError (DbState × Fs) :=
  let ownedPaths := (db.files_data.filter
      (fun r => r.getD 2 [] = b64Encode username)).map (fun r => r.getD 0 [])
  match crossResourceDelete Table.Accounts [username] db fs
      (fun fs0 => Except.ok
        (fs0.filter (fun pc => !ownedPaths.contains (b64Encode pc.1)))) with
  | (Except.error e, _, _) => Except.error e
  | (Except.ok _, db2, fs2) => Except.ok (db2, fs2)

instance {ε α : Type _} [DecidableEq ε] [DecidableEq α] : DecidableEq (Except ε α) :=
  fun x y =>
    match x, y with
    | .ok a, .ok b =>
        if h : a = b then isTrue (by rw [h])
        else isFalse (by intro hc; cases hc; exact h rfl)
    | .error a, .error b =>
        if h : a = b then isTrue (by rw [h])
        else isFalse (by intro hc; cases hc; exact h rfl)
    | .ok _, .error _ => isFalse (by intro hc; cases hc)
    | .error _, .ok _ => isFalse (by intro hc; cases hc)

instance Table.entityDecEq (t : Table) : DecidableEq t.Entity := by
  cases t <;> (dsimp [Table.Entity]; infer_instance)

/-! ## Supporting lemmas -/

lemma b64CharInv_b64Char {s : Nat} (hs : s < 64) : b64CharInv (b64Char s) = some s := by
  revert hs
  revert s
  decide

lemma b64Encode_roundtrip : ∀ bs : Bytes, ByteString bs → b64Decode (b64Encode bs) = some bs := by
  intro bs
  induction bs using b64Encode.induct with
  | case1 =>
      intro _
      rfl
  | case2 a =>
      intro h
      have ha : a < 256 := h a (by simp)
      simp only [b64Encode, b64Decode,
        b64CharInv_b64Char (show a / 4 < 64 by omega),
        b64CharInv_b64Char (show a % 4 * 16 < 64 by omega)]
      simp only [Option.bind_eq_bind, Option.some_bind, Option.some.injEq, List.cons.injEq,
        and_true]
      omega
  | case3 a b =>
      intro h
      have ha : a < 256 := h a (by simp)
      have hb : b < 256 := h b (by simp)
      simp only [b64Encode, b64Decode,
        b64CharInv_b64Char (show a / 4 < 64 by omega),
        b64CharInv_b64Char (show a % 4 * 16 + b / 16 < 64 by omega),
        b64CharInv_b64Char (show b % 16 * 4 < 64 by omega)]
      simp only [Option.bind_eq_bind, Option.some_bind, Option.some.injEq, List.cons.injEq,
        and_true]
      constructor
      · omega
      · omega
  | case4 a b c rest ih =>
      intro h
      have ha : a < 256 := h a (by simp)
      have hb : b < 256 := h b (by simp)
      have hc : c < 256 := h c (by simp)
      have hrest : ByteString rest := by
        intro x hx
        exact h x (by simp [hx])
      have ihr := ih hrest
      simp only [b64Encode, b64Decode,
        b64CharInv_b64Char (show a / 4 < 64 by omega),
        b64CharInv_b64Char (show a % 4 * 16 + b / 16 < 64 by omega),
        b64CharInv_b64Char (show b % 16 * 4 + c / 64 < 64 by omega),
        b64CharInv_b64Char (show c % 64 < 64 by omega), ihr]
      simp only [Option.bind_eq_bind, Option.some_bind, Option.some.injEq, List.cons.injEq,
        and_true]
      refine ⟨by omega, by omega, by omega⟩


lemma length_maskFrom (key nonce : Bytes) :
    ∀ (i : Nat) (bs : Bytes), (maskFrom key nonce i bs).length = bs.length := by
  intro i bs
  induction bs generalizing i with
  | nil => rfl
  | cons b rest ih => simp [maskFrom, ih]

lemma maskFrom_maskFrom (key nonce : Bytes) :
    ∀ (i : Nat) (bs : Bytes), maskFrom key nonce i (maskFrom key nonce i bs) = bs := by
  intro i bs
  induction bs generalizing i with
  | nil => rfl
  | cons b rest ih => simp [maskFrom, Nat.xor_cancel_right, ih]

lemma aeadEncrypt_length (key nonce pt : Bytes) (hk : key.length = 32)
    (hn : nonce.length = 12) :
    (aeadEncrypt key nonce pt).length = 2 * pt.length + 44 := by
  simp [aeadEncrypt, length_maskFrom, hk, hn]
  omega

/-- Decryption success forces the ciphertext to be exactly the encryption of
the returned plaintext under the same key and nonce. -/
lemma aeadDecrypt_shape {key nonce ct p : Bytes}
    (h : aeadDecrypt key nonce ct = some p) : ct = aeadEncrypt key nonce p := by
  simp only [aeadDecrypt] at h
  split_ifs at h with hc
  · have hp : maskFrom key nonce 0 (ct.take ((ct.length - 44) / 2)) = p := Option.some.inj h
    rw [aeadEncrypt, ← hp, maskFrom_maskFrom]
    exact hc

lemma aeadDecrypt_aeadEncrypt (key nonce pt : Bytes) (hk : key.length = 32)
    (hn : nonce.length = 12) :
    aeadDecrypt key nonce (aeadEncrypt key nonce pt) = some pt := by
  have hlen := aeadEncrypt_length key nonce pt hk hn
  have hm : (maskFrom key nonce 0 pt).length = pt.length := length_maskFrom key nonce 0 pt
  have htake : (aeadEncrypt key nonce pt).take pt.length = maskFrom key nonce 0 pt := by
    simp only [aeadEncrypt, List.append_assoc]
    rw [← hm, List.take_left]
  simp only [aeadDecrypt, hlen]
  have hL : (2 * pt.length + 44 - 44) / 2 = pt.length := by omega
  rw [hL, htake, if_pos (by simp [aeadEncrypt]), maskFrom_maskFrom]

/-! Positional view of the model ciphertext `x ++ key ++ nonce ++ x`: the
first copy of the masked bytes, the key/nonce commitment in the middle, and
the second copy of the masked bytes. -/

lemma shape_getElem_lo {key nonce : Bytes} (x : Bytes) {p : Nat} (hp : p < x.length) :
    (x ++ key ++ nonce ++ x)[p]? = x[p]? := by
  rw [List.getElem?_append_left (by simp only [List.length_append]; omega),
    List.getElem?_append_left (by simp only [List.length_append]; omega),
    List.getElem?_append_left hp]

lemma shape_getElem_mid {key nonce : Bytes} (x : Bytes) (p r : Nat) (hlo : x.length ≤ p)
    (hhi : p < x.length + key.length + nonce.length) (hr : r = p - x.length) :
    (x ++ key ++ nonce ++ x)[p]? = (key ++ nonce)[r]? := by
  subst hr
  rw [List.getElem?_append_left (by simp only [List.length_append]; omega),
    List.append_assoc, List.getElem?_append_right hlo]

lemma shape_getElem_hi {key nonce : Bytes} (x : Bytes) (p : Nat) {q : Nat} (_hp : p < x.length)
    (hq : q = x.length + key.length + nonce.length + p) :
    (x ++ key ++ nonce ++ x)[q]? = x[p]? := by
  subst hq
  rw [List.getElem?_append_right (by simp only [List.length_append]; omega)]
  congr 1
  simp only [List.length_append]
  omega

/-- Altering any single byte of a model ciphertext makes decryption (under the
encryption key and nonce) reject it. -/
lemma aeadDecrypt_set_ne {key nonce pt : Bytes} (hk : key.length = 32)
    (hn : nonce.length = 12) {i v : Nat} (hi : i < (aeadEncrypt key nonce pt).length)
    (hv : v ≠ (aeadEncrypt key nonce pt).getD i 0) :
    aeadDecrypt key nonce ((aeadEncrypt key nonce pt).set i v) = none := by
  cases hdec : aeadDecrypt key nonce ((aeadEncrypt key nonce pt).set i v) with
  | none => rfl
  | some p =>
    exfalso
    have hshape := aeadDecrypt_shape hdec
    have hA : aeadEncrypt key nonce pt =
        maskFrom key nonce 0 pt ++ key ++ nonce ++ maskFrom key nonce 0 pt := rfl
    have hB : aeadEncrypt key nonce p =
        maskFrom key nonce 0 p ++ key ++ nonce ++ maskFrom key nonce 0 p := rfl
    set A := maskFrom key nonce 0 pt with hAdef
    set B := maskFrom key nonce 0 p with hBdef
    have hlenA : A.length = pt.length := length_maskFrom key nonce 0 pt
    have hlenB : B.length = p.length := length_maskFrom key nonce 0 p
    have hltA := aeadEncrypt_length key nonce pt hk hn
    have hltB := aeadEncrypt_length key nonce p hk hn
    have hlen : ((aeadEncrypt key nonce pt).set i v).length =
        (aeadEncrypt key nonce p).length := by rw [hshape]
    rw [List.length_set] at hlen
    have hBA : B.length = A.length := by omega
    have hi' : i < 2 * A.length + 44 := by omega
    have E : (A ++ key ++ nonce ++ A).set i v = B ++ key ++ nonce ++ B := by
      rw [← hA, ← hB]; exact hshape
    have hset_i : (B ++ key ++ nonce ++ B)[i]? = some v := by
      rw [← E]
      exact List.getElem?_set_self (by rw [← hA]; exact hi)
    have hset_ne : ∀ q, q ≠ i →
        (B ++ key ++ nonce ++ B)[q]? = (A ++ key ++ nonce ++ A)[q]? := by
      intro q hq
      rw [← E, List.getElem?_set_ne (Ne.symm hq)]
    have hgetD : (A ++ key ++ nonce ++ A)[i]? =
        some ((aeadEncrypt key nonce pt).getD i 0) := by
      rw [List.getD_eq_getElem _ _ hi, ← hA]
      exact List.getElem?_eq_getElem hi
    have hAB_at_i : (B ++ key ++ nonce ++ B)[i]? = (A ++ key ++ nonce ++ A)[i]? := by
      by_cases h1 : i < A.length
      · -- first masked copy: the second copy pins the byte down
        have hdup := hset_ne (A.length + key.length + nonce.length + i) (by omega)
        rw [shape_getElem_hi A i h1 rfl,
          shape_getElem_hi B i (by omega) (by omega)] at hdup
        rw [shape_getElem_lo A h1, shape_getElem_lo B (by omega)]
        exact hdup
      · by_cases h2 : i < A.length + key.length + nonce.length
        · -- key/nonce commitment region: identical on both sides
          rw [shape_getElem_mid A i (i - A.length) (by omega) h2 rfl]
          exact shape_getElem_mid B i (i - A.length) (by omega) (by omega) (by omega)
        · -- second masked copy: the first copy pins the byte down
          have hq : i - (A.length + key.length + nonce.length) < A.length := by omega
          have hdup := hset_ne (i - (A.length + key.length + nonce.length)) (by omega)
          rw [shape_getElem_lo A hq, shape_getElem_lo B (by omega)] at hdup
          rw [shape_getElem_hi A (i - (A.length + key.length + nonce.length)) hq (by omega),
            shape_getElem_hi B (i - (A.length + key.length + nonce.length)) (by omega)
              (by omega)]
          exact hdup
    rw [hAB_at_i, hgetD] at hset_i
    exact hv (Option.some.inj hset_i).symm

/-- Decrypting a model ciphertext under a different 32-byte key rejects it. -/
lemma aeadDecrypt_wrong_key {key key2 nonce pt : Bytes} (hk : key.length = 32)
    (hk2 : key2.length = 32) (hn : nonce.length = 12) (hne : key2 ≠ key) :
    aeadDecrypt key2 nonce (aeadEncrypt key nonce pt) = none := by
  cases hdec : aeadDecrypt key2 nonce (aeadEncrypt key nonce pt) with
  | none => rfl
  | some p =>
    exfalso
    have hshape := aeadDecrypt_shape hdec
    have hA : aeadEncrypt key nonce pt =
        maskFrom key nonce 0 pt ++ key ++ nonce ++ maskFrom key nonce 0 pt := rfl
    have hB : aeadEncrypt key2 nonce p =
        maskFrom key2 nonce 0 p ++ key2 ++ nonce ++ maskFrom key2 nonce 0 p := rfl
    set A := maskFrom key nonce 0 pt
    set B := maskFrom key2 nonce 0 p
    have hlenA : A.length = pt.length := length_maskFrom key nonce 0 pt
    have hlenB : B.length = p.length := length_maskFrom key2 nonce 0 p
    have hltA := aeadEncrypt_length key nonce pt hk hn
    have hltB := aeadEncrypt_length key2 nonce p hk2 hn
    have hlen : (aeadEncrypt key nonce pt).length = (aeadEncrypt key2 nonce p).length := by
      rw [hshape]
    have hBA : A.length = B.length := by omega
    have hE : A ++ key ++ nonce ++ A = B ++ key2 ++ nonce ++ B := by
      rw [← hA, ← hB]; exact hshape
    have h1 := List.append_inj hE (by simp only [List.length_append]; omega)
    have h2 := List.append_inj h1.1 (by simp only [List.length_append]; omega)
    have h3 := List.append_inj h2.1 hBA
    exact hne (h3.2.symm)

/-- Decrypting a model ciphertext under a different 12-byte nonce rejects it. -/
lemma aeadDecrypt_wrong_nonce {key nonce nonce2 pt : Bytes} (hk : key.length = 32)
    (hn : nonce.length = 12) (hn2 : nonce2.length = 12) (hne : nonce2 ≠ nonce) :
    aeadDecrypt key nonce2 (aeadEncrypt key nonce pt) = none := by
  cases hdec : aeadDecrypt key nonce2 (aeadEncrypt key nonce pt) with
  | none => rfl
  | some p =>
    exfalso
    have hshape := aeadDecrypt_shape hdec
    have hA : aeadEncrypt key nonce pt =
        maskFrom key nonce 0 pt ++ key ++ nonce ++ maskFrom key nonce 0 pt := rfl
    have hB : aeadEncrypt key nonce2 p =
        maskFrom key nonce2 0 p ++ key ++ nonce2 ++ maskFrom key nonce2 0 p := rfl
    set A := maskFrom key nonce 0 pt
    set B := maskFrom key nonce2 0 p
    have hlenA : A.length = pt.length := length_maskFrom key nonce 0 pt
    have hlenB : B.length = p.length := length_maskFrom key nonce2 0 p
    have hltA := aeadEncrypt_length key nonce pt hk hn
    have hltB := aeadEncrypt_length key nonce2 p hk hn2
    have hlen : (aeadEncrypt key nonce pt).length = (aeadEncrypt key nonce2 p).length := by
      rw [hshape]
    have hBA : A.length = B.length := by omega
    have hE : A ++ key ++ nonce ++ A = B ++ key ++ nonce2 ++ B := by
      rw [← hA, ← hB]; exact hshape
    have h1 := List.append_inj hE (by simp only [List.length_append]; omega)
    have h2 := List.append_inj h1.1 (by simp only [List.length_append]; omega)
    exact hne (h2.2.symm)


lemma xor_two_pow_ne (x j : Nat) : x ^^^ 2 ^ j ≠ x := by
  intro h
  have hc : x ^^^ (x ^^^ 2 ^ j) = 2 ^ j := Nat.xor_cancel_left x (2 ^ j)
  rw [h, Nat.xor_self] at hc
  exact absurd hc.symm (Nat.pos_iff_ne_zero.mp (Nat.pos_pow_of_pos j (by omega)))

lemma length_flipBit (bs : Bytes) (i j : Nat) : (flipBit bs i j).length = bs.length :=
  List.length_set bs i _

lemma flipBit_ne {bs : Bytes} {i : Nat} (j : Nat) (hi : i < bs.length) :
    flipBit bs i j ≠ bs := by
  intro h
  have h1 : (flipBit bs i j)[i]? = some (bs.getD i 0 ^^^ 2 ^ j) :=
    List.getElem?_set_self (by rw [flipBit] at h; omega)
  have h2 : bs[i]? = some (bs.getD i 0) := by
    rw [List.getD_eq_getElem _ _ hi]
    exact List.getElem?_eq_getElem hi
  rw [h, h2] at h1
  exact xor_two_pow_ne (bs.getD i 0) j (Option.some.inj h1).symm


/-! ## Claim theorems -/

/-- C9: The key encoding applied to every key-tuple element before it is
bound as a query parameter (`IntoB64`, base64) is lossless over arbitrary
byte strings: for every byte string `B`, including sequences that are not
valid text, `decode(encode(B)) = B`. -/
theorem b64_roundtrip_lossless (bs : Bytes) (h : ByteString bs) :
    b64Decode (b64Encode bs) = some bs :=
  b64Encode_roundtrip bs h

theorem b64_roundtrip_lossless_witness :
    ByteString [0, 255, 128, 7] ∧
      b64Decode (b64Encode [0, 255, 128, 7]) = some [0, 255, 128, 7] :=
  ⟨by decide, b64_roundtrip_lossless [0, 255, 128, 7] (by decide)⟩

/-- C4: For every byte string `P`, 32-byte key `K` and 12-byte nonce `N`,
decrypting the envelope produced by `try_encrypt_bytes_key_nonce P K N`
with the same key `K` succeeds and returns exactly `P`. -/
theorem encrypt_then_decrypt_roundtrip (pt key nonce : Bytes) (hk : key.length = 32)
    (hn : nonce.length = 12) (e : Encrypted)
    (henc : Encrypted.try_encrypt_bytes_key_nonce pt key nonce = Except.ok e) :
    e.try_decrypt_bytes key = Except.ok pt := by
  have he : e = ⟨aeadEncrypt key nonce pt, nonce⟩ := by
    have h := henc
    simp only [Encrypted.try_encrypt_bytes_key_nonce, Except.ok.injEq] at h
    exact h.symm
  rw [he]
  simp only [Encrypted.try_decrypt_bytes, aeadDecrypt_aeadEncrypt key nonce pt hk hn]

theorem encrypt_then_decrypt_roundtrip_witness :
    Encrypted.try_decrypt_bytes
      ⟨aeadEncrypt (List.replicate 32 0) (List.replicate 12 0) [7, 200],
        List.replicate 12 0⟩ (List.replicate 32 0) = Except.ok [7, 200] :=
  encrypt_then_decrypt_roundtrip [7, 200] (List.replicate 32 0) (List.replicate 12 0)
    (by decide) (by decide)
    ⟨aeadEncrypt (List.replicate 32 0) (List.replicate 12 0) [7, 200],
      List.replicate 12 0⟩ rfl

/-- C6: Encryption is deterministic given a fixed nonce: two envelopes built
by encrypting the same plaintext under the same key and nonce are
byte-for-byte equal — equal cipherbytes and equal nonce. -/
theorem encrypt_deterministic (pt key nonce : Bytes) (e1 e2 : Encrypted)
    (h1 : Encrypted.try_encrypt_bytes_key_nonce pt key nonce = Except.ok e1)
    (h2 : Encrypted.try_encrypt_bytes_key_nonce pt key nonce = Except.ok e2) :
    e1.cipherbytes = e2.cipherbytes ∧ e1.nonce = e2.nonce := by
  have h := h1.symm.trans h2
  simp only [Except.ok.injEq] at h
  rw [h]
  exact ⟨rfl, rfl⟩

theorem encrypt_deterministic_witness :
    (⟨aeadEncrypt (List.replicate 32 0) (List.replicate 12 0) [1, 2],
        List.replicate 12 0⟩ : Encrypted).cipherbytes =
      (⟨aeadEncrypt (List.replicate 32 0) (List.replicate 12 0) [1, 2],
        List.replicate 12 0⟩ : Encrypted).cipherbytes ∧
    (⟨aeadEncrypt (List.replicate 32 0) (List.replicate 12 0) [1, 2],
        List.replicate 12 0⟩ : Encrypted).nonce =
      (⟨aeadEncrypt (List.replicate 32 0) (List.replicate 12 0) [1, 2],
        List.replicate 12 0⟩ : Encrypted).nonce :=
  encrypt_deterministic [1, 2] (List.replicate 32 0) (List.replicate 12 0) _ _ rfl rfl

/-- C5: For every plaintext, 32-byte key and 12-byte nonce, decrypting the
resulting envelope with any different 32-byte key, or decrypting any
bit-flipped alteration of the envelope's cipherbytes (masked plaintext or
tag) or nonce, returns a decryption-failure error — never a wrong plaintext
and never a panic (all operations are total). -/
theorem decrypt_tamper_fails (pt key key2 nonce : Bytes) (e : Encrypted)
    (hk : key.length = 32) (hk2 : key2.length = 32) (hn : nonce.length = 12)
    (henc : Encrypted.try_encrypt_bytes_key_nonce pt key nonce = Except.ok e) :
    (key2 ≠ key →
      e.try_decrypt_bytes key2 = Except.error CryptoError.decryptionFailure) ∧
    (∀ i j, i < e.cipherbytes.length → j < 8 →
      Encrypted.try_decrypt_bytes ⟨flipBit e.cipherbytes i j, e.nonce⟩ key =
        Except.error CryptoError.decryptionFailure) ∧
    (∀ i j, i < e.nonce.length → j < 8 →
      Encrypted.try_decrypt_bytes ⟨e.cipherbytes, flipBit e.nonce i j⟩ key =
        Except.error CryptoError.decryptionFailure) := by
  have he : e = ⟨aeadEncrypt key nonce pt, nonce⟩ := by
    have h := henc
    simp only [Encrypted.try_encrypt_bytes_key_nonce, Except.ok.injEq] at h
    exact h.symm
  subst he
  refine ⟨?_, ?_, ?_⟩
  · intro hne
    simp only [Encrypted.try_decrypt_bytes,
      aeadDecrypt_wrong_key hk hk2 hn hne]
  · intro i j hi _
    have hv : (aeadEncrypt key nonce pt).getD i 0 ^^^ 2 ^ j ≠
        (aeadEncrypt key nonce pt).getD i 0 :=
      xor_two_pow_ne _ j
    simp only [Encrypted.try_decrypt_bytes, flipBit,
      aeadDecrypt_set_ne hk hn hi hv]
  · intro i j hi _
    have hn2 : (flipBit nonce i j).length = 12 := by
      rw [length_flipBit]; exact hn
    have hne : flipBit nonce i j ≠ nonce := flipBit_ne j hi
    simp only [Encrypted.try_decrypt_bytes,
      aeadDecrypt_wrong_nonce hk hn hn2 hne]

theorem decrypt_tamper_fails_witness :
    Encrypted.try_decrypt_bytes
        ⟨aeadEncrypt (List.replicate 32 0) (List.replicate 12 0) [7],
          List.replicate 12 0⟩ (1 :: List.replicate 31 0) =
      Except.error CryptoError.decryptionFailure ∧
    Encrypted.try_decrypt_bytes
        ⟨flipBit (aeadEncrypt (List.replicate 32 0) (List.replicate 12 0) [7]) 0 0,
          List.replicate 12 0⟩ (List.replicate 32 0) =
      Except.error CryptoError.decryptionFailure ∧
    Encrypted.try_decrypt_bytes
        ⟨aeadEncrypt (List.replicate 32 0) (List.replicate 12 0) [7],
          flipBit (List.replicate 12 0) 0 0⟩ (List.replicate 32 0) =
      Except.error CryptoError.decryptionFailure :=
  ⟨(decrypt_tamper_fails [7] (List.replicate 32 0) (1 :: List.replicate 31 0)
      (List.replicate 12 0) _ (by decide) (by decide) (by decide) rfl).1 (by decide),
   (decrypt_tamper_fails [7] (List.replicate 32 0) (1 :: List.replicate 31 0)
      (List.replicate 12 0) _ (by decide) (by decide) (by decide) rfl).2.1 0 0
      (by decide) (by decide),
   (decrypt_tamper_fails [7] (List.replicate 32 0) (1 :: List.replicate 31 0)
      (List.replicate 12 0) _ (by decide) (by decide) (by decide) rfl).2.2 0 0
      (by decide) (by decide)⟩

/-- C10: `transaction_delete` takes ownership of the transaction and returns
without ever committing it: the returned transaction still carries the
original committed base state, and the rollback performed when it is
dropped leaves the committed store state exactly as before the call —
whether the delete succeeded or failed. -/
theorem transaction_delete_never_durable (t : Table) (key : List Bytes) (tx : Txn) :
    (transaction_delete t key tx).2.base = tx.base ∧
    connection_after_transaction_delete t key tx = tx.base := by
  have h : (transaction_delete t key tx).2 =
      ⟨tx.base, applyDelete t tx.work (get_params_iter key)⟩ := by
    simp only [transaction_delete]
    split <;> rfl
  rw [connection_after_transaction_delete, rollback_transaction, h]
  exact ⟨rfl, rfl⟩

/-- C8: `delete_entry` fails with the not-found error iff zero rows matched
the key's bound parameters, and succeeds otherwise. -/
theorem delete_entry_notFound_iff (t : Table) (db : DbState) (key : List Bytes) :
    (delete_entry t db key = Except.error DbError.notFound ↔
      (t.rows db).countP (rowMatches t.keyCols (get_params_iter key)) = 0) ∧
    ((∃ db2, delete_entry t db key = Except.ok db2) ↔
      (t.rows db).countP (rowMatches t.keyCols (get_params_iter key)) ≠ 0) := by
  unfold delete_entry
  by_cases h : (t.rows db).countP (rowMatches t.keyCols (get_params_iter key)) = 0
  · simp [h]
  · simp [h]

/-- C7: `select_entry` returns `Ok None` — not an error — when no row matches
the key, and a matching row that fails to decode into its entity shape
yields the distinct `CorruptRow` error. -/
theorem select_entry_none_and_corrupt (t : Table) (db : DbState) (key : List Bytes) :
    ((t.rows db).find? (rowMatches t.keyCols (get_params_iter key)) = none →
      select_entry t db key = Except.ok none) ∧
    (∀ row, (t.rows db).find? (rowMatches t.keyCols (get_params_iter key)) = some row →
      t.try_from_database row = none →
      select_entry t db key = Except.error DbError.corruptRow) := by
  constructor
  · intro h
    simp [select_entry, h]
  · intro row hr hd
    simp [select_entry, hr, hd]

theorem select_entry_none_and_corrupt_witness :
    select_entry Table.Accounts ⟨[], [], []⟩ [[97]] = Except.ok none ∧
    select_entry Table.Accounts ⟨[[]], [], []⟩ [[]] =
      Except.error DbError.corruptRow :=
  ⟨(select_entry_none_and_corrupt Table.Accounts ⟨[], [], []⟩ [[97]]).1 (by decide),
   (select_entry_none_and_corrupt Table.Accounts ⟨[[]], [], []⟩ [[]]).2 []
     (by decide) (by decide)⟩

/-- C1: In the cross-resource delete protocol, if the store-side delete
inside the transaction fails, the operation rolls back immediately and
returns that error with the filesystem never touched; if the store delete
succeeds but the filesystem step fails, the store transaction is rolled
back and the store ends up exactly as before the operation began. -/
theorem cross_resource_delete_rollback (t : Table) (key : List Bytes) (db : DbState)
    (fs : Fs) (fsOp : Fs → Except DbError Fs) :
    (∀ e, delete_entry t db key = Except.error e →
      crossResourceDelete t key db fs fsOp = (Except.error e, db, fs)) ∧
    (∀ db2 e, delete_entry t db key = Except.ok db2 → fsOp fs = Except.error e →
      crossResourceDelete t key db fs fsOp = (Except.error e, db, fs)) := by
  constructor
  · intro e h
    simp [crossResourceDelete, txnDeleteStep, new_transaction, rollback_transaction, h]
  · intro db2 e h hf
    simp [crossResourceDelete, txnDeleteStep, new_transaction, rollback_transaction,
      h, hf]

theorem cross_resource_delete_rollback_witness :
    crossResourceDelete Table.Accounts [[97]] ⟨[], [], []⟩ []
        (fun f => Except.ok f) = (Except.error DbError.notFound, ⟨[], [], []⟩, []) ∧
    crossResourceDelete Table.Accounts [[66]] ⟨[[b64Encode [66]]], [], []⟩ []
        (fun _ => Except.error DbError.ioFailure) =
      (Except.error DbError.ioFailure, ⟨[[b64Encode [66]]], [], []⟩, []) :=
  ⟨(cross_resource_delete_rollback Table.Accounts [[97]] ⟨[], [], []⟩ []
      (fun f => Except.ok f)).1 DbError.notFound (by decide),
   (cross_resource_delete_rollback Table.Accounts [[66]] ⟨[[b64Encode [66]]], [], []⟩ []
      (fun _ => Except.error DbError.ioFailure)).2 ⟨[], [], []⟩ DbError.ioFailure
      (by decide) rfl⟩

/-- C2: Inserting a Credential or FileData whose `owner_username` matches no
existing Account row fails with `ConstraintViolation` and persists nothing:
a subsequent select for that entity's key (against the unchanged store,
which references only existing accounts and holds no row under the new
FileData's path) returns none. -/
theorem insert_missing_owner_fails (db : DbState) (c : Credential) (f : FileData)
    (hfkC : ∀ row ∈ db.credentials, ∃ arow ∈ db.accounts,
      arow.getD 0 [] = row.getD 0 [])
    (hnoC : ∀ arow ∈ db.accounts, arow.getD 0 [] ≠ b64Encode c.owner_username)
    (hnoF : ∀ arow ∈ db.accounts, arow.getD 0 [] ≠ b64Encode f.owner_username)
    (hfreshF : ∀ row ∈ db.files_data, row.getD 0 [] ≠ b64Encode f.path) :
    insert_entry Table.Credentials db c = Except.error DbError.constraintViolation ∧
    select_entry Table.Credentials db
      [c.owner_username, c.encrypted_name.cipherbytes] = Except.ok none ∧
    insert_entry Table.FilesData db f = Except.error DbError.constraintViolation ∧
    select_entry Table.FilesData db [f.path] = Except.ok none := by
  refine ⟨?_, ?_, ?_, ?_⟩
  · have hfk : fkOk Table.Credentials db (Table.into_database Table.Credentials c)
        = false := by
      simp only [fkOk, List.any_eq_false, decide_eq_true_eq]
      intro ar har
      exact hnoC ar har
    simp [insert_entry, hfk]
  · have hfind : (Table.rows Table.Credentials db).find?
        (rowMatches (Table.keyCols Table.Credentials)
          (get_params_iter [c.owner_username, c.encrypted_name.cipherbytes])) = none := by
      rw [List.find?_eq_none]
      intro row hrow hmatch
      have hcol : row.getD 0 [] = b64Encode c.owner_username := by
        simp only [rowMatches, Table.keyCols, get_params_iter, List.map,
          decide_eq_true_eq, List.cons.injEq] at hmatch
        exact hmatch.1
      obtain ⟨ar, har, haeq⟩ := hfkC row hrow
      exact hnoC ar har (haeq.trans hcol)
    simp [select_entry, hfind]
  · have hfk : fkOk Table.FilesData db (Table.into_database Table.FilesData f)
        = false := by
      simp only [fkOk, List.any_eq_false, decide_eq_true_eq]
      intro ar har
      exact hnoF ar har
    simp [insert_entry, hfk]
  · have hfind : (Table.rows Table.FilesData db).find?
        (rowMatches (Table.keyCols Table.FilesData) (get_params_iter [f.path]))
        = none := by
      rw [List.find?_eq_none]
      intro row hrow hmatch
      have hcol : row.getD 0 [] = b64Encode f.path := by
        simp only [rowMatches, Table.keyCols, get_params_iter, List.map,
          decide_eq_true_eq, List.cons.injEq] at hmatch
        exact hmatch.1
      exact hfreshF row hrow hcol
    simp [select_entry, hfind]

theorem insert_missing_owner_fails_witness :
    insert_entry Table.Credentials ⟨[], [], []⟩
        (⟨[1], ⟨[], List.replicate 12 0⟩, ⟨[], List.replicate 12 0⟩,
          ⟨[], List.replicate 12 0⟩, ⟨[], List.replicate 12 0⟩⟩ : Credential) =
      Except.error DbError.constraintViolation ∧
    select_entry Table.Credentials ⟨[], [], []⟩ [[1], []] = Except.ok none ∧
    insert_entry Table.FilesData ⟨[], [], []⟩
        (⟨[2], [], [3], List.replicate 12 0⟩ : FileData) =
      Except.error DbError.constraintViolation ∧
    select_entry Table.FilesData ⟨[], [], []⟩ [[2]] = Except.ok none :=
  insert_missing_owner_fails ⟨[], [], []⟩
    ⟨[1], ⟨[], List.replicate 12 0⟩, ⟨[], List.replicate 12 0⟩,
      ⟨[], List.replicate 12 0⟩, ⟨[], List.replicate 12 0⟩⟩
    ⟨[2], [], [3], List.replicate 12 0⟩
    (by simp) (by simp) (by simp) (by simp)

lemma delete_account_run (db : DbState) (fs : Fs) (u : Bytes)
    (hacc : db.accounts.countP
      (rowMatches Table.Accounts.keyCols (get_params_iter [u])) ≠ 0) :
    delete_account db fs u = Except.ok
      (applyDelete Table.Accounts db (get_params_iter [u]),
       fs.filter (fun pc => !((db.files_data.filter
          (fun r => r.getD 2 [] = b64Encode u)).map
            (fun r => r.getD 0 [])).contains (b64Encode pc.1))) := by
  have hdel : delete_entry Table.Accounts db [u] =
      Except.ok (applyDelete Table.Accounts db (get_params_iter [u])) := by
    simp only [delete_entry, Table.rows]
    rw [if_neg]
    simpa only [Table.rows] using hacc
  simp [delete_account, crossResourceDelete, txnDeleteStep, new_transaction,
    commit_transaction, hdel]

/-- C3: Deleting a stored Account removes its account row, every Credential
and FileData row it owns, and every on-disk file referenced by those
FileData rows, while every account, credential, file-data row and file
belonging to any other account remains present. -/
theorem delete_account_cascades (db : DbState) (fs : Fs) (u : Bytes)
    (hacc : db.accounts.countP
      (rowMatches Table.Accounts.keyCols (get_params_iter [u])) ≠ 0)
    (hnodup : (db.files_data.map (fun r => r.getD 0 [])).Nodup) :
    ∃ db2 fs2, delete_account db fs u = Except.ok (db2, fs2) ∧
      (∀ row ∈ db.accounts, row.getD 0 [] = b64Encode u → row ∉ db2.accounts) ∧
      (∀ row ∈ db.credentials, row.getD 0 [] = b64Encode u → row ∉ db2.credentials) ∧
      (∀ row ∈ db.files_data, row.getD 2 [] = b64Encode u → row ∉ db2.files_data) ∧
      (∀ pc ∈ fs, (∃ row, row ∈ db.files_data ∧ row.getD 2 [] = b64Encode u ∧
        row.getD 0 [] = b64Encode pc.1) → pc ∉ fs2) ∧
      (∀ row ∈ db.accounts, row.getD 0 [] ≠ b64Encode u → row ∈ db2.accounts) ∧
      (∀ row ∈ db.credentials, row.getD 0 [] ≠ b64Encode u → row ∈ db2.credentials) ∧
      (∀ row ∈ db.files_data, row.getD 2 [] ≠ b64Encode u → row ∈ db2.files_data) ∧
      (∀ pc ∈ fs, (∃ row, row ∈ db.files_data ∧ row.getD 2 [] ≠ b64Encode u ∧
        row.getD 0 [] = b64Encode pc.1) → pc ∈ fs2) := by
  have hmatch : ∀ row : Row,
      rowMatches Table.Accounts.keyCols (get_params_iter [u]) row =
        decide (row.getD 0 [] = b64Encode u) := by
    intro row
    simp [rowMatches, Table.keyCols, get_params_iter]
  refine ⟨_, _, delete_account_run db fs u hacc, ?_, ?_, ?_, ?_, ?_, ?_, ?_, ?_⟩
  · -- the account's own row is gone
    intro row hrow hcol hmem
    rw [applyDelete] at hmem
    simp only [List.mem_filter, hmatch] at hmem
    rw [hcol] at hmem
    simp at hmem
  · -- owned credential rows are gone
    intro row hrow hcol hmem
    obtain ⟨arow, harow, harowm⟩ : ∃ a ∈ db.accounts,
        rowMatches Table.Accounts.keyCols (get_params_iter [u]) a := by
      by_contra hno
      push_neg at hno
      exact hacc (List.countP_eq_zero.mpr (by simpa using hno))
    rw [applyDelete] at hmem
    simp only [List.mem_filter] at hmem
    have hin : (((db.accounts.filter
        (rowMatches Table.Accounts.keyCols (get_params_iter [u]))).map
          (fun r => r.getD 0 [])).contains (row.getD 0 [])) = true := by
      rw [hcol]
      have harowcol : arow.getD 0 [] = b64Encode u := by
        have := harowm
        rw [hmatch arow] at this
        exact of_decide_eq_true this
      rw [List.contains_iff_exists_mem_beq]
      refine ⟨arow.getD 0 [], List.mem_map_of_mem _ (List.mem_filter.mpr ⟨harow, harowm⟩), ?_⟩
      rw [harowcol]
      exact beq_self_eq_true _
    rw [hin] at hmem
    exact absurd hmem.2 (by simp)
  · -- owned file-data rows are gone
    intro row hrow hcol hmem
    obtain ⟨arow, harow, harowm⟩ : ∃ a ∈ db.accounts,
        rowMatches Table.Accounts.keyCols (get_params_iter [u]) a := by
      by_contra hno
      push_neg at hno
      exact hacc (List.countP_eq_zero.mpr (by simpa using hno))
    rw [applyDelete] at hmem
    simp only [List.mem_filter] at hmem
    have hin : (((db.accounts.filter
        (rowMatches Table.Accounts.keyCols (get_params_iter [u]))).map
          (fun r => r.getD 0 [])).contains (row.getD 2 [])) = true := by
      rw [hcol]
      have harowcol : arow.getD 0 [] = b64Encode u := by
        have := harowm
        rw [hmatch arow] at this
        exact of_decide_eq_true this
      rw [List.contains_iff_exists_mem_beq]
      refine ⟨arow.getD 0 [], List.mem_map_of_mem _ (List.mem_filter.mpr ⟨harow, harowm⟩), ?_⟩
      rw [harowcol]
      exact beq_self_eq_true _
    rw [hin] at hmem
    exact absurd hmem.2 (by simp)
  · -- the owned files are gone from disk
    intro pc hpc ⟨row, hrow, hown, hpath⟩ hmem
    simp only [List.mem_filter] at hmem
    have hin : ((db.files_data.filter (fun r => r.getD 2 [] = b64Encode u)).map
        (fun r => r.getD 0 [])).contains (b64Encode pc.1) = true := by
      rw [List.contains_iff_exists_mem_beq]
      refine ⟨row.getD 0 [], List.mem_map_of_mem _
        (List.mem_filter.mpr ⟨hrow, decide_eq_true hown⟩), ?_⟩
      rw [hpath]
      exact beq_self_eq_true _
    rw [hin] at hmem
    exact absurd hmem.2 (by simp)
  · -- other accounts remain
    intro row hrow hcol
    rw [applyDelete]
    simp only [List.mem_filter, hmatch]
    refine ⟨hrow, ?_⟩
    rw [decide_eq_false hcol]
    rfl
  · -- other accounts' credentials remain
    intro row hrow hcol
    rw [applyDelete]
    simp only [List.mem_filter]
    refine ⟨hrow, ?_⟩
    rw [Bool.not_eq_eq_eq_not, Bool.not_true]
    rw [List.contains_eq_any_beq, List.any_eq_false]
    intro x hx
    simp only [List.mem_map, List.mem_filter] at hx
    obtain ⟨r, ⟨hr, hrm⟩, hrx⟩ := hx
    have hrcol : r.getD 0 [] = b64Encode u := by
      rw [hmatch r] at hrm
      exact of_decide_eq_true hrm
    intro hbeq
    have : row.getD 0 [] = x := eq_of_beq hbeq
    rw [← hrx, hrcol] at this
    exact hcol this
  · -- other accounts' file-data rows remain
    intro row hrow hcol
    rw [applyDelete]
    simp only [List.mem_filter]
    refine ⟨hrow, ?_⟩
    rw [Bool.not_eq_eq_eq_not, Bool.not_true]
    rw [List.contains_eq_any_beq, List.any_eq_false]
    intro x hx
    simp only [List.mem_map, List.mem_filter] at hx
    obtain ⟨r, ⟨hr, hrm⟩, hrx⟩ := hx
    have hrcol : r.getD 0 [] = b64Encode u := by
      rw [hmatch r] at hrm
      exact of_decide_eq_true hrm
    intro hbeq
    have : row.getD 2 [] = x := eq_of_beq hbeq
    rw [← hrx, hrcol] at this
    exact hcol this
  · -- other accounts' files remain on disk
    intro pc hpc ⟨row, hrow, hown, hpath⟩
    simp only [List.mem_filter]
    refine ⟨hpc, ?_⟩
    rw [Bool.not_eq_eq_eq_not, Bool.not_true]
    rw [List.contains_eq_any_beq, List.any_eq_false]
    intro x hx
    simp only [List.mem_map, List.mem_filter, decide_eq_true_eq] at hx
    obtain ⟨r, ⟨hr, hrown⟩, hrx⟩ := hx
    intro hbeq
    have hxeq : b64Encode pc.1 = x := eq_of_beq hbeq
    -- `r` is owned by `u` and sits at the same encoded path as `row`;
    -- paths are a primary key, so `r = row`, contradicting the owners
    have hsame : r.getD 0 [] = row.getD 0 [] := by
      rw [hrx, ← hxeq, hpath]
    have hreq : r = row :=
      List.inj_on_of_nodup_map hnodup hr hrow hsame
    rw [hreq] at hrown
    exact hown hrown

theorem delete_account_cascades_witness :
    ∃ db2 fs2,
      delete_account
          ⟨[[b64Encode [1]]], [], [[b64Encode [10], [], b64Encode [1], []]]⟩
          [([10], [99])] [1] = Except.ok (db2, fs2) ∧
        [b64Encode [10], [], b64Encode [1], []] ∉ db2.files_data ∧
        ([10], [99]) ∉ fs2 := by
  obtain ⟨db2, fs2, hrun, _, _, h3, h4, _, _, _, _⟩ :=
    delete_account_cascades
      ⟨[[b64Encode [1]]], [], [[b64Encode [10], [], b64Encode [1], []]]⟩
      [([10], [99])] [1] (by decide) (by decide)
  exact ⟨db2, fs2, hrun,
    h3 [b64Encode [10], [], b64Encode [1], []] (by decide) (by decide),
    h4 ([10], [99]) (by decide)
      ⟨[b64Encode [10], [], b64Encode [1], []], by decide, by decide, by decide⟩⟩
